import Mathlib

/-!
Verification of the cache manager of `tmdb-proxy-go` (`main.go`).

The Go code is shallowly embedded:

* the Go map `map[string]*CacheEntry` becomes an association list
  `Store := List (String × CacheEntry)` with unique keys (`WF`);
  map iteration order is modelled as list order;
* `time.Time` becomes `Nat` (nanoseconds); `t1.After t2` is `t1 > t2`;
  `time.Now()` is an explicit `now : Nat` argument to each operation;
* the nested-loop swap sort of `checkCacheSize` becomes the extensionally
  equal functional selection sort `sortEntries` (the inner `j`-loop that
  swaps `entries[i], entries[j]` whenever `entries[i].expiry.After
  (entries[j].expiry)` becomes `innerLoop`);
* `Get`, which holds only a read lock and never writes the map, is embedded
  with explicit state passing: it returns the (unchanged) store alongside
  its `([]byte, bool)` result.
-/

namespace TmdbCache

/-- `CacheEntry` from `main.go`: `Data []byte`, `Expiry time.Time`. -/
structure CacheEntry where
  data : List UInt8
  expiry : Nat
  deriving DecidableEq, Repr

/-- The `cache map[string]*CacheEntry` field of `CacheManager`. -/
abbrev Store := List (String × CacheEntry)

/-- The keys of the store. -/
def keys (store : Store) : List String := store.map Prod.fst

/-- Well-formedness of the association-list model of a Go map: unique keys. -/
def WF (store : Store) : Prop := (keys store).Nodup

instance (store : Store) : Decidable (WF store) :=
  List.nodupDecidable (keys store)

/-- `CACHE_DURATION = 10 * time.Minute`, in nanoseconds. -/
def CACHE_DURATION : Nat := 10 * 60 * 1000000000

/-- `MAX_CACHE_SIZE = 1000`. -/
def MAX_CACHE_SIZE : Nat := 1000

/-- `CLEANUP_INTERVAL = 10 * time.Minute`, in nanoseconds. -/
def CLEANUP_INTERVAL : Nat := 10 * 60 * 1000000000

/-- Map read `entry, exists := cm.cache[key]`. -/
def findEntry : Store → String → Option CacheEntry
  | [], _ => none
  | (k, e) :: rest, key => if k = key then some e else findEntry rest key

/-- Map write `cm.cache[key] = entry`: replace if present, else add. -/
def insertEntry : Store → String → CacheEntry → Store
  | [], key, e => [(key, e)]
  | (k, e') :: rest, key, e =>
    if k = key then (key, e) :: rest else (k, e') :: insertEntry rest key e

/-- Map delete `delete(cm.cache, key)`. -/
def eraseKey (store : Store) (key : String) : Store :=
  store.filter (fun p => decide (p.1 ≠ key))

/-- The inner `j`-loop of the sort in `checkCacheSize`: starting from the
element `x` currently at position `i`, swap with each later element whose
expiry is strictly smaller; returns the final element at position `i`
together with the modified tail. -/
def innerLoop (x : String × Nat) : List (String × Nat) → (String × Nat) × List (String × Nat)
  | [] => (x, [])
  | y :: ys =>
    if x.2 > y.2 then
      let p := innerLoop y ys
      (p.1, x :: p.2)
    else
      let p := innerLoop x ys
      (p.1, y :: p.2)

theorem innerLoop_length (x : String × Nat) (l : List (String × Nat)) :
    (innerLoop x l).2.length = l.length := by
  induction l generalizing x with
  | nil => rfl
  | cons y ys ih =>
    simp only [innerLoop]
    split <;> simp [ih]

/-- The nested-loop sort of `checkCacheSize`, ascending by expiry. -/
def sortEntries : List (String × Nat) → List (String × Nat)
  | [] => []
  | x :: xs =>
    let p := innerLoop x xs
    p.1 :: sortEntries p.2
termination_by l => l.length
decreasing_by simp [innerLoop_length]

/-- `checkCacheSize`: if over `MAX_CACHE_SIZE`, collect `(key, expiry)`
pairs, sort ascending by expiry, and delete the oldest
`len(cache) - MAX_CACHE_SIZE` entries. -/
def checkCacheSize (store : Store) : Store :=
  if store.length ≤ MAX_CACHE_SIZE then store
  else
    let entries := store.map (fun p => (p.1, p.2.expiry))
    let sorted := sortEntries entries
    let deleteCount := store.length - MAX_CACHE_SIZE
    (sorted.take deleteCount).foldl (fun s e => eraseKey s e.1) store

/-- `Get`: under a read lock, look the key up; a missing key or an entry
with `time.Now().After(entry.Expiry)` is a miss. The store is threaded
through unchanged (the Go body performs no map writes). -/
def Get (store : Store) (now : Nat) (key : String) :
    (Option (List UInt8) × Bool) × Store :=
  match findEntry store key with
  | none => ((none, false), store)
  | some entry =>
    if now > entry.expiry then ((none, false), store)
    else ((some entry.data, true), store)

/-- `Set`: under the write lock, run `checkCacheSize`, then write
`key → {data, time.Now().Add(CACHE_DURATION)}`. -/
def Set (store : Store) (now : Nat) (key : String) (data : List UInt8) : Store :=
  insertEntry (checkCacheSize store) key ⟨data, now + CACHE_DURATION⟩

/-- `cleanExpiredCache`: under the write lock, delete every entry with
`now.After(entry.Expiry)`. -/
def cleanExpiredCache (store : Store) (now : Nat) : Store :=
  store.filter (fun p => !decide (now > p.2.expiry))

/-- One observable cache operation, with the time at which it runs. -/
inductive Op where
  | set (now : Nat) (key : String) (data : List UInt8)
  | get (now : Nat) (key : String)
  | sweep (now : Nat)
  deriving Repr

/-- Effect of one operation on the store. -/
def step (store : Store) : Op → Store
  | .set now key data => Set store now key data
  | .get now key => (Get store now key).2
  | .sweep now => cleanExpiredCache store now

/-- The store of a `NewCacheManager()` (empty map) after a sequence of
operations. -/
def run (ops : List Op) : Store := ops.foldl step []

/-- Fold a sequence of `Set` calls, each a `(now, key, data)` triple. -/
def setAll (store : Store) (ops : List (Nat × String × List UInt8)) : Store :=
  ops.foldl (fun s op => Set s op.1 op.2.1 op.2.2) store

/-- The `(key, expiry)` projection built at the top of the eviction pass. -/
def expiryPairs (store : Store) : List (String × Nat) :=
  store.map (fun p => (p.1, p.2.expiry))

/-- The keys deleted by the eviction pass, when it fires. -/
def evictedKeys (store : Store) : List String :=
  ((sortEntries (expiryPairs store)).take (store.length - MAX_CACHE_SIZE)).map Prod.fst

/-- The entry a `Set` with arguments `(now, key, data)` writes. -/
def entryOf (op : Nat × String × List UInt8) : String × CacheEntry :=
  (op.2.1, ⟨op.2.2, op.1 + CACHE_DURATION⟩)

/-- A family of pairwise-distinct cache keys (distinguished by length). -/
def demoKey (i : Nat) : String := String.mk (List.replicate i 'a')

/-- `n` `Set` requests on distinct keys at strictly increasing times. -/
def demoOps (n : Nat) : List (Nat × String × List UInt8) :=
  (List.range n).map (fun i => (i, demoKey i, []))

/-! ### Ground lemmas about the map model -/

theorem mem_keys {store : Store} {k : String} :
    k ∈ keys store ↔ ∃ e, (k, e) ∈ store := by
  constructor
  · intro h
    obtain ⟨p, hp, he⟩ := List.mem_map.1 h
    obtain ⟨a, b⟩ := p
    cases he
    exact ⟨b, hp⟩
  · rintro ⟨e, he⟩
    exact List.mem_map.2 ⟨(k, e), he, rfl⟩

theorem findEntry_eq_none {store : Store} {k : String} :
    findEntry store k = none ↔ k ∉ keys store := by
  induction store with
  | nil => simp [findEntry, keys]
  | cons p rest ih =>
    obtain ⟨a, b⟩ := p
    by_cases h : a = k
    · subst h
      simp [findEntry, keys]
    · simp only [findEntry, h, if_false, keys, List.map_cons, List.mem_cons, not_or]
      simp only [keys] at ih
      rw [ih]
      exact ⟨fun hk => ⟨fun hh => h hh.symm, hk⟩, fun hk => hk.2⟩

theorem findEntry_mem {store : Store} {k : String} {e : CacheEntry}
    (h : findEntry store k = some e) : (k, e) ∈ store := by
  induction store with
  | nil => simp [findEntry] at h
  | cons p rest ih =>
    obtain ⟨a, b⟩ := p
    by_cases hak : a = k
    · subst hak
      simp [findEntry] at h
      simp [h]
    · simp [findEntry, hak] at h
      exact List.mem_cons_of_mem _ (ih h)

theorem findEntry_eq_some_of_mem {store : Store} {k : String} {e : CacheEntry}
    (hwf : WF store) (h : (k, e) ∈ store) : findEntry store k = some e := by
  induction store with
  | nil => simp at h
  | cons p rest ih =>
    obtain ⟨a, b⟩ := p
    simp only [WF, keys, List.map_cons, List.nodup_cons] at hwf
    rcases List.mem_cons.1 h with h1 | h1
    · obtain ⟨rfl, rfl⟩ := Prod.mk.injEq .. ▸ Prod.ext_iff.1 h1
      simp [findEntry]
    · have hak : a ≠ k := by
        rintro rfl
        exact hwf.1 (mem_keys.2 ⟨e, h1⟩)
      simp only [findEntry, hak, if_false]
      exact ih hwf.2 h1

theorem insertEntry_of_not_mem {store : Store} {k : String} (e : CacheEntry)
    (h : k ∉ keys store) : insertEntry store k e = store ++ [(k, e)] := by
  induction store with
  | nil => rfl
  | cons p rest ih =>
    obtain ⟨a, b⟩ := p
    simp only [keys, List.map_cons, List.mem_cons, not_or] at h
    have hak : ¬ a = k := fun hh => h.1 hh.symm
    simp [insertEntry, hak, ih (by simpa [keys] using h.2)]

theorem keys_insertEntry (store : Store) (k : String) (e : CacheEntry) :
    keys (insertEntry store k e) =
      if k ∈ keys store then keys store else keys store ++ [k] := by
  induction store with
  | nil => simp [insertEntry, keys]
  | cons p rest ih =>
    obtain ⟨a, b⟩ := p
    by_cases hak : a = k
    · subst hak
      simp [insertEntry, keys]
    · have hka : ¬ k = a := fun hh => hak hh.symm
      simp only [keys, List.map_cons] at ih ⊢
      simp only [insertEntry, hak, if_false, List.map_cons, List.mem_cons, hka, false_or]
      by_cases hk : k ∈ List.map Prod.fst rest
      · simp only [hk, if_true] at ih ⊢
        rw [ih]
      · simp only [hk, if_false] at ih ⊢
        rw [ih, List.cons_append]

theorem length_insertEntry (store : Store) (k : String) (e : CacheEntry) :
    (insertEntry store k e).length =
      if k ∈ keys store then store.length else store.length + 1 := by
  have h := congrArg List.length (keys_insertEntry store k e)
  by_cases hk : k ∈ keys store
  · rw [if_pos hk] at h ⊢
    simpa [keys, List.length_map] using h
  · rw [if_neg hk] at h ⊢
    simpa [keys, List.length_map] using h

theorem WF_insertEntry {store : Store} (k : String) (e : CacheEntry)
    (hwf : WF store) : WF (insertEntry store k e) := by
  unfold WF
  rw [keys_insertEntry]
  by_cases hk : k ∈ keys store
  · simpa [hk] using hwf
  · simp only [hk, if_false]
    simpa [List.nodup_append] using ⟨hwf, fun h => hk h⟩

theorem mem_insertEntry {store : Store} {k : String} {e : CacheEntry} {p : String × CacheEntry}
    (h : p ∈ insertEntry store k e) : p = (k, e) ∨ p ∈ store := by
  induction store with
  | nil => simpa [insertEntry] using h
  | cons q rest ih =>
    obtain ⟨a, b⟩ := q
    by_cases hak : a = k
    · subst hak
      rw [show insertEntry ((a, b) :: rest) a e = (a, e) :: rest by simp [insertEntry]] at h
      rcases List.mem_cons.1 h with h1 | h1
      · exact Or.inl h1
      · exact Or.inr (List.mem_cons_of_mem _ h1)
    · rw [show insertEntry ((a, b) :: rest) k e = (a, b) :: insertEntry rest k e by
        simp [insertEntry, hak]] at h
      rcases List.mem_cons.1 h with h1 | h1
      · exact Or.inr (List.mem_cons.2 (Or.inl h1))
      · rcases ih h1 with h2 | h2
        · exact Or.inl h2
        · exact Or.inr (List.mem_cons_of_mem _ h2)

theorem findEntry_insertEntry_self (store : Store) (k : String) (e : CacheEntry) :
    findEntry (insertEntry store k e) k = some e := by
  induction store with
  | nil => simp [insertEntry, findEntry]
  | cons p rest ih =>
    obtain ⟨a, b⟩ := p
    by_cases hak : a = k <;> simp [insertEntry, findEntry, hak, ih]

theorem mem_eraseKey {store : Store} {k : String} {p : String × CacheEntry} :
    p ∈ eraseKey store k ↔ p ∈ store ∧ p.1 ≠ k := by
  simp [eraseKey, List.mem_filter]

theorem eraseKey_sublist (store : Store) (k : String) :
    (eraseKey store k).Sublist store :=
  List.filter_sublist store

/-! ### The delete loop of `checkCacheSize` as a single filter -/

theorem foldl_eraseKey_eq_filter (ds : List (String × Nat)) (store : Store) :
    ds.foldl (fun s e => eraseKey s e.1) store
      = store.filter (fun p => decide (p.1 ∉ ds.map Prod.fst)) := by
  induction ds generalizing store with
  | nil => simp
  | cons d ds ih =>
    rw [List.foldl_cons, ih, eraseKey, List.filter_filter]
    apply List.filter_congr
    intro p _
    by_cases h1 : p.1 = d.1 <;> by_cases h2 : p.1 ∈ ds.map Prod.fst <;>
      simp [h1, h2]

theorem map_fst_filter_key (P : String → Bool) (store : Store) :
    (store.filter (fun p => P p.1)).map Prod.fst = (store.map Prod.fst).filter P := by
  induction store with
  | nil => rfl
  | cons q rest ih =>
    cases hP : P q.1 <;> simp [List.filter_cons, hP, ih]

theorem length_filter_key_mem {store : Store} {D : List String}
    (hwf : WF store) (hnd : D.Nodup) (hsub : ∀ k ∈ D, k ∈ keys store) :
    (store.filter (fun p => decide (p.1 ∈ D))).length = D.length := by
  have hmapf :
      (store.filter (fun p => decide (p.1 ∈ D))).map Prod.fst
        = (keys store).filter (fun k => decide (k ∈ D)) :=
    map_fst_filter_key (fun k => decide (k ∈ D)) store
  have hlen :
      (store.filter (fun p => decide (p.1 ∈ D))).length
        = ((keys store).filter (fun k => decide (k ∈ D))).length := by
    rw [← hmapf, List.length_map]
  rw [hlen]
  have hfnd : ((keys store).filter (fun k => decide (k ∈ D))).Nodup :=
    List.Nodup.filter _ hwf
  have hperm : List.Perm ((keys store).filter (fun k => decide (k ∈ D))) D := by
    rw [List.perm_ext_iff_of_nodup hfnd hnd]
    intro a
    simp only [List.mem_filter, decide_eq_true_eq]
    exact ⟨fun h => h.2, fun h => ⟨hsub a h, h⟩⟩
  exact hperm.length_eq

theorem length_filter_key_not_mem {store : Store} {D : List String}
    (hwf : WF store) (hnd : D.Nodup) (hsub : ∀ k ∈ D, k ∈ keys store) :
    (store.filter (fun p => decide (p.1 ∉ D))).length = store.length - D.length := by
  have hpart :=
    (List.filter_append_perm (fun p => decide (p.1 ∉ D)) store).length_eq
  rw [List.length_append] at hpart
  have hneg :
      store.filter (fun p => !decide (p.1 ∉ D))
        = store.filter (fun p => decide (p.1 ∈ D)) := by
    apply List.filter_congr
    intro p _
    by_cases h : p.1 ∈ D <;> simp [h]
  rw [hneg, length_filter_key_mem hwf hnd hsub] at hpart
  omega

/-! ### The nested-loop sort: permutation, sortedness, fixed points -/

theorem innerLoop_perm (x : String × Nat) (l : List (String × Nat)) :
    List.Perm ((innerLoop x l).1 :: (innerLoop x l).2) (x :: l) := by
  induction l generalizing x with
  | nil => exact List.Perm.refl _
  | cons y ys ih =>
    simp only [innerLoop]
    split
    · exact (List.Perm.swap x _ _).trans ((ih y).cons x)
    · exact (List.Perm.swap y _ _).trans (((ih x).cons y).trans (List.Perm.swap x y ys))

theorem innerLoop_min (x : String × Nat) (l : List (String × Nat)) :
    (innerLoop x l).1.2 ≤ x.2 ∧ ∀ y ∈ (innerLoop x l).2, (innerLoop x l).1.2 ≤ y.2 := by
  induction l generalizing x with
  | nil => simp [innerLoop]
  | cons y ys ih =>
    rw [innerLoop]
    split
    · rename_i hgt
      obtain ⟨h1, h2⟩ := ih y
      refine ⟨le_of_lt (lt_of_le_of_lt h1 hgt), ?_⟩
      intro z hz
      rcases List.mem_cons.1 hz with rfl | hz
      · exact le_of_lt (lt_of_le_of_lt h1 hgt)
      · exact h2 z hz
    · rename_i hle
      push_neg at hle
      obtain ⟨h1, h2⟩ := ih x
      refine ⟨h1, ?_⟩
      intro z hz
      rcases List.mem_cons.1 hz with rfl | hz
      · exact le_trans h1 hle
      · exact h2 z hz

theorem sortEntries_perm : ∀ l : List (String × Nat), List.Perm (sortEntries l) l
  | [] => by rw [sortEntries]
  | x :: xs => by
    rw [sortEntries]
    exact ((sortEntries_perm (innerLoop x xs).2).cons _).trans (innerLoop_perm x xs)
termination_by l => l.length
decreasing_by simp [innerLoop_length]

theorem sortEntries_sorted :
    ∀ l : List (String × Nat), List.Sorted (fun a b => a.2 ≤ b.2) (sortEntries l)
  | [] => by rw [sortEntries]; exact List.sorted_nil
  | x :: xs => by
    rw [sortEntries, List.sorted_cons]
    refine ⟨?_, sortEntries_sorted (innerLoop x xs).2⟩
    intro b hb
    have hb2 : b ∈ (innerLoop x xs).2 :=
      (sortEntries_perm (innerLoop x xs).2).mem_iff.1 hb
    exact (innerLoop_min x xs).2 b hb2
termination_by l => l.length
decreasing_by all_goals simp [innerLoop_length]

theorem innerLoop_eq_self (x : String × Nat) (l : List (String × Nat))
    (h : ∀ y ∈ l, x.2 ≤ y.2) : innerLoop x l = (x, l) := by
  induction l generalizing x with
  | nil => rfl
  | cons y ys ih =>
    rw [innerLoop]
    have hxy : ¬ x.2 > y.2 := not_lt.2 (h y (List.mem_cons_self y ys))
    rw [if_neg hxy]
    have hrec := ih x (fun z hz => h z (List.mem_cons_of_mem y hz))
    simp [hrec]

theorem sortEntries_eq_self :
    ∀ l : List (String × Nat), List.Sorted (fun a b => a.2 ≤ b.2) l → sortEntries l = l
  | [], _ => by rw [sortEntries]
  | x :: xs, h => by
    rw [List.sorted_cons] at h
    rw [sortEntries]
    have hloop := innerLoop_eq_self x xs (fun y hy => h.1 y hy)
    simp only [hloop]
    rw [sortEntries_eq_self xs h.2]
termination_by l => l.length
decreasing_by simp [innerLoop_length]

/-! ### Characterization of `checkCacheSize` -/

theorem WF_eq_of_fst_eq {store : Store} (hwf : WF store) {p q : String × CacheEntry}
    (hp : p ∈ store) (hq : q ∈ store) (h : p.1 = q.1) : p = q := by
  induction store with
  | nil => simp at hp
  | cons r rest ih =>
    simp only [WF, keys, List.map_cons, List.nodup_cons] at hwf
    rcases List.mem_cons.1 hp with hp1 | hp1 <;> rcases List.mem_cons.1 hq with hq1 | hq1
    · rw [hp1, hq1]
    · exfalso
      apply hwf.1
      rw [← show p.1 = r.1 from congrArg Prod.fst hp1, h]
      exact List.mem_map.2 ⟨q, hq1, rfl⟩
    · exfalso
      apply hwf.1
      rw [← show q.1 = r.1 from congrArg Prod.fst hq1, ← h]
      exact List.mem_map.2 ⟨p, hp1, rfl⟩
    · exact ih hwf.2 hp1 hq1

theorem map_fst_expiryPairs (store : Store) :
    (expiryPairs store).map Prod.fst = keys store := by
  simp [expiryPairs, keys, List.map_map]

theorem checkCacheSize_of_le {store : Store} (h : store.length ≤ MAX_CACHE_SIZE) :
    checkCacheSize store = store := by
  rw [checkCacheSize, if_pos h]

theorem checkCacheSize_of_gt {store : Store} (h : MAX_CACHE_SIZE < store.length) :
    checkCacheSize store
      = store.filter (fun p => decide (p.1 ∉
          ((sortEntries (expiryPairs store)).take
            (store.length - MAX_CACHE_SIZE)).map Prod.fst)) := by
  rw [checkCacheSize, if_neg (not_le.2 h)]
  exact foldl_eraseKey_eq_filter _ store

theorem evictedKeys_nodup {store : Store} (hwf : WF store) :
    (evictedKeys store).Nodup := by
  have hperm : List.Perm ((sortEntries (expiryPairs store)).map Prod.fst) (keys store) :=
    (List.Perm.map Prod.fst (sortEntries_perm (expiryPairs store))).trans
      (map_fst_expiryPairs store ▸ List.Perm.refl _)
  have hnd : ((sortEntries (expiryPairs store)).map Prod.fst).Nodup :=
    hperm.nodup_iff.2 hwf
  exact List.Nodup.sublist
    (List.Sublist.map Prod.fst (List.take_sublist _ _)) hnd

theorem evictedKeys_subset {store : Store} :
    ∀ k ∈ evictedKeys store, k ∈ keys store := by
  intro k hk
  obtain ⟨u, hu, rfl⟩ := List.mem_map.1 hk
  have hu2 : u ∈ sortEntries (expiryPairs store) :=
    List.mem_of_mem_take hu
  have hu3 : u ∈ expiryPairs store :=
    (sortEntries_perm (expiryPairs store)).mem_iff.1 hu2
  obtain ⟨p, hp, rfl⟩ := List.mem_map.1 hu3
  exact List.mem_map.2 ⟨p, hp, rfl⟩

theorem evictedKeys_length {store : Store} (h : MAX_CACHE_SIZE < store.length) :
    (evictedKeys store).length = store.length - MAX_CACHE_SIZE := by
  have hslen : (sortEntries (expiryPairs store)).length = store.length :=
    (sortEntries_perm (expiryPairs store)).length_eq.trans
      (by simp [expiryPairs])
  simp only [evictedKeys, List.length_map, List.length_take, hslen]
  omega

theorem checkCacheSize_length_of_gt {store : Store} (hwf : WF store)
    (h : MAX_CACHE_SIZE < store.length) :
    (checkCacheSize store).length = MAX_CACHE_SIZE := by
  rw [checkCacheSize_of_gt h]
  have := length_filter_key_not_mem (D := evictedKeys store) hwf
    (evictedKeys_nodup hwf) evictedKeys_subset
  rw [show (evictedKeys store).length = store.length - MAX_CACHE_SIZE from
    evictedKeys_length h] at this
  rw [show (store.filter (fun p => decide (p.1 ∉
      ((sortEntries (expiryPairs store)).take
        (store.length - MAX_CACHE_SIZE)).map Prod.fst))) =
      (store.filter (fun p => decide (p.1 ∉ evictedKeys store))) from rfl]
  rw [this]
  omega

theorem checkCacheSize_length_le {store : Store} (hwf : WF store) :
    (checkCacheSize store).length ≤ MAX_CACHE_SIZE := by
  by_cases h : store.length ≤ MAX_CACHE_SIZE
  · rw [checkCacheSize_of_le h]
    exact h
  · rw [checkCacheSize_length_of_gt hwf (not_le.1 h)]

theorem checkCacheSize_sublist (store : Store) :
    (checkCacheSize store).Sublist store := by
  by_cases h : store.length ≤ MAX_CACHE_SIZE
  · rw [checkCacheSize_of_le h]
  · rw [checkCacheSize_of_gt (not_le.1 h)]
    exact List.filter_sublist store

theorem WF_checkCacheSize {store : Store} (hwf : WF store) :
    WF (checkCacheSize store) :=
  List.Nodup.sublist (List.Sublist.map Prod.fst (checkCacheSize_sublist store)) hwf

theorem checkCacheSize_removed_le {store : Store} (hwf : WF store)
    (h : MAX_CACHE_SIZE < store.length) {p q : String × CacheEntry}
    (hp : p ∈ store) (hpn : p ∉ checkCacheSize store)
    (hq : q ∈ checkCacheSize store) : p.2.expiry ≤ q.2.expiry := by
  rw [checkCacheSize_of_gt h] at hpn hq
  have hpD : p.1 ∈ evictedKeys store := by
    by_contra hc
    exact hpn (List.mem_filter.2 ⟨hp, by simpa [evictedKeys] using hc⟩)
  have hqm := List.mem_filter.1 hq
  have hqD : q.1 ∉ evictedKeys store := by
    simpa [evictedKeys] using hqm.2
  -- locate the sorted pair corresponding to the removed entry p
  obtain ⟨u, hu, hufst⟩ := List.mem_map.1 hpD
  have hu2 : u ∈ expiryPairs store :=
    (sortEntries_perm (expiryPairs store)).mem_iff.1 (List.mem_of_mem_take hu)
  obtain ⟨pu, hpu, hpueq⟩ := List.mem_map.1 hu2
  have hpup : pu = p := by
    apply WF_eq_of_fst_eq hwf hpu hp
    rw [← hufst, ← hpueq]
  -- locate the sorted pair corresponding to the kept entry q
  have hqent : (q.1, q.2.expiry) ∈ sortEntries (expiryPairs store) :=
    (sortEntries_perm (expiryPairs store)).mem_iff.2
      (List.mem_map.2 ⟨q, hqm.1, rfl⟩)
  have hqdrop : (q.1, q.2.expiry) ∈
      (sortEntries (expiryPairs store)).drop (store.length - MAX_CACHE_SIZE) := by
    have hsplit : (q.1, q.2.expiry) ∈
        (sortEntries (expiryPairs store)).take (store.length - MAX_CACHE_SIZE) ++
          (sortEntries (expiryPairs store)).drop (store.length - MAX_CACHE_SIZE) := by
      rw [List.take_append_drop]
      exact hqent
    rcases List.mem_append.1 hsplit with htk | hdp
    · exfalso
      apply hqD
      show q.1 ∈ evictedKeys store
      unfold evictedKeys
      exact List.mem_map.2 ⟨(q.1, q.2.expiry), htk, rfl⟩
    · exact hdp
  have hsorted := sortEntries_sorted (expiryPairs store)
  have hpw : List.Pairwise (fun a b : String × Nat => a.2 ≤ b.2)
      ((sortEntries (expiryPairs store)).take (store.length - MAX_CACHE_SIZE) ++
        (sortEntries (expiryPairs store)).drop (store.length - MAX_CACHE_SIZE)) := by
    rw [List.take_append_drop]
    exact hsorted
  have hrel := (List.pairwise_append.1 hpw).2.2 u hu (q.1, q.2.expiry) hqdrop
  have : u.2 = p.2.expiry := by
    rw [← hpup, ← hpueq]
  rw [← this]
  exact hrel

/-! ### Operation-level lemmas -/

theorem Get_store_eq (store : Store) (now : Nat) (key : String) :
    (Get store now key).2 = store := by
  cases h : findEntry store key with
  | none => simp [Get, h]
  | some e => by_cases hexp : now > e.expiry <;> simp [Get, h, hexp]

theorem Get_hit {store : Store} {now : Nat} {key : String} {e : CacheEntry}
    (h : findEntry store key = some e) (hexp : ¬ now > e.expiry) :
    (Get store now key).1 = (some e.data, true) := by
  simp [Get, h, hexp]

theorem Get_miss_absent {store : Store} {now : Nat} {key : String}
    (h : findEntry store key = none) : (Get store now key).1 = (none, false) := by
  simp [Get, h]

theorem Get_miss_expired {store : Store} {now : Nat} {key : String} {e : CacheEntry}
    (h : findEntry store key = some e) (hexp : now > e.expiry) :
    (Get store now key).1 = (none, false) := by
  simp [Get, h, hexp]

theorem WF_Set {store : Store} (now : Nat) (key : String) (data : List UInt8)
    (hwf : WF store) : WF (Set store now key data) :=
  WF_insertEntry key _ (WF_checkCacheSize hwf)

theorem Set_length_le {store : Store} (now : Nat) (key : String) (data : List UInt8)
    (hwf : WF store) : (Set store now key data).length ≤ MAX_CACHE_SIZE + 1 := by
  rw [Set, length_insertEntry]
  have hc := checkCacheSize_length_le hwf
  split <;> omega

theorem WF_cleanExpiredCache {store : Store} (now : Nat) (hwf : WF store) :
    WF (cleanExpiredCache store now) :=
  List.Nodup.sublist (List.Sublist.map Prod.fst (List.filter_sublist store)) hwf

theorem cleanExpiredCache_length_le (store : Store) (now : Nat) :
    (cleanExpiredCache store now).length ≤ store.length :=
  List.length_filter_le _ store

theorem WF_step {store : Store} (op : Op) (hwf : WF store) : WF (step store op) := by
  cases op with
  | set now key data => exact WF_Set now key data hwf
  | get now key => rw [step, Get_store_eq]; exact hwf
  | sweep now => exact WF_cleanExpiredCache now hwf

theorem step_length_le {store : Store} (op : Op) (hwf : WF store)
    (hlen : store.length ≤ MAX_CACHE_SIZE + 1) :
    (step store op).length ≤ MAX_CACHE_SIZE + 1 := by
  cases op with
  | set now key data => exact Set_length_le now key data hwf
  | get now key => rw [step, Get_store_eq]; exact hlen
  | sweep now => exact le_trans (cleanExpiredCache_length_le store now) hlen

theorem foldl_step_inv (ops : List Op) :
    ∀ store : Store, WF store → store.length ≤ MAX_CACHE_SIZE + 1 →
      WF (ops.foldl step store) ∧ (ops.foldl step store).length ≤ MAX_CACHE_SIZE + 1 := by
  induction ops with
  | nil => exact fun store hwf hlen => ⟨hwf, hlen⟩
  | cons op ops ih =>
    intro store hwf hlen
    rw [List.foldl_cons]
    exact ih (step store op) (WF_step op hwf) (step_length_le op hwf hlen)

theorem WF_run (ops : List Op) : WF (run ops) :=
  (foldl_step_inv ops [] (by simp [WF, keys]) (by simp)).1

/-! ### The sliding-window shape of repeated fresh inserts -/

theorem WF_setAll (ops : List (Nat × String × List UInt8)) :
    ∀ store : Store, WF store → WF (setAll store ops) := by
  induction ops with
  | nil => exact fun store hwf => hwf
  | cons op ops ih =>
    intro store hwf
    exact ih _ (WF_Set op.1 op.2.1 op.2.2 hwf)

theorem checkCacheSize_cons_sorted {p : String × CacheEntry} {tl : Store}
    (hwf : WF (p :: tl)) (hlen : (p :: tl).length = MAX_CACHE_SIZE + 1)
    (hsorted : List.Sorted (fun a b : String × Nat => a.2 ≤ b.2)
      (expiryPairs (p :: tl))) :
    checkCacheSize (p :: tl) = tl := by
  have hgt : MAX_CACHE_SIZE < (p :: tl).length := by omega
  rw [checkCacheSize_of_gt hgt]
  have hdc : (p :: tl).length - MAX_CACHE_SIZE = 1 := by omega
  rw [hdc, sortEntries_eq_self _ hsorted,
    show expiryPairs (p :: tl) = (p.1, p.2.expiry) :: expiryPairs tl from rfl,
    show (((p.1, p.2.expiry) :: expiryPairs tl).take 1).map Prod.fst = [p.1] by simp]
  have hkeys : p.1 ∉ keys tl := by
    have := hwf
    simp only [WF, keys, List.map_cons, List.nodup_cons] at this
    simpa [keys] using this.1
  rw [List.filter_cons]
  have h1 : (decide (p.1 ∉ [p.1])) = false := by simp
  rw [h1]
  simp only [Bool.false_eq_true, if_false]
  rw [List.filter_eq_self]
  intro q hq
  simp only [List.mem_singleton, decide_eq_true_eq]
  intro hq1
  apply hkeys
  apply mem_keys.2 ⟨q.2, ?_⟩
  rw [← hq1, Prod.mk.eta]
  exact hq

theorem setAll_window (ops : List (Nat × String × List UInt8))
    (hnd : (ops.map fun op => op.2.1).Nodup)
    (hmono : List.Pairwise (fun a b => a.1 < b.1) ops) :
    setAll [] ops = (ops.map entryOf).drop (ops.length - (MAX_CACHE_SIZE + 1)) := by
  induction ops using List.reverseRecOn with
  | nil => rfl
  | append_singleton as a ih =>
    rw [List.map_append, List.nodup_append] at hnd
    have hnd' := hnd.1
    have hfresh : a.2.1 ∉ as.map (fun op => op.2.1) := by
      intro hmem
      exact hnd.2.2 hmem (List.mem_singleton_self _)
    have hmono' : List.Pairwise (fun a b => a.1 < b.1) as :=
      hmono.sublist (List.sublist_append_left as [a])
    have IH := ih hnd' hmono'
    have hstep : setAll [] (as ++ [a]) = Set (setAll [] as) a.1 a.2.1 a.2.2 := by
      simp [setAll, List.foldl_append]
    have hEfst : (as.map entryOf).map Prod.fst = as.map (fun op => op.2.1) := by
      rw [List.map_map]
      rfl
    have hkeysS : keys (setAll [] as)
        = (as.map fun op => op.2.1).drop (as.length - (MAX_CACHE_SIZE + 1)) := by
      rw [IH, keys, List.map_drop, hEfst]
    have hfreshS : a.2.1 ∉ keys (setAll [] as) := by
      rw [hkeysS]
      intro hmem
      exact hfresh (List.mem_of_mem_drop hmem)
    have hlenS : (setAll [] as).length
        = as.length - (as.length - (MAX_CACHE_SIZE + 1)) := by
      rw [IH, List.length_drop, List.length_map]
    by_cases hm : as.length ≤ MAX_CACHE_SIZE
    · have hz : as.length - (MAX_CACHE_SIZE + 1) = 0 := by omega
      have hz2 : (as ++ [a]).length - (MAX_CACHE_SIZE + 1) = 0 := by
        simp only [List.length_append, List.length_singleton]
        omega
      have hS : setAll [] as = as.map entryOf := by
        rw [IH, hz, List.drop_zero]
      have hlen2 : (setAll [] as).length ≤ MAX_CACHE_SIZE := by
        rw [hS, List.length_map]
        exact hm
      rw [hstep, Set, checkCacheSize_of_le hlen2,
        insertEntry_of_not_mem _ hfreshS, hS, hz2, List.drop_zero,
        List.map_append]
      rfl
    · have hm' : MAX_CACHE_SIZE < as.length := not_le.1 hm
      have hlenS2 : (setAll [] as).length = MAX_CACHE_SIZE + 1 := by omega
      have hwfS : WF (setAll [] as) := WF_setAll as [] (by simp [WF, keys])
      -- the expiries along the current window are sorted ascending
      have hpwE : List.Pairwise
          (fun u v : String × CacheEntry => u.2.expiry ≤ v.2.expiry)
          (as.map entryOf) := by
        rw [List.pairwise_map]
        exact hmono'.imp (fun hab => by
          simp only [entryOf]
          omega)
      have hpwS : List.Pairwise
          (fun u v : String × CacheEntry => u.2.expiry ≤ v.2.expiry)
          (setAll [] as) := by
        rw [IH]
        exact hpwE.sublist (List.drop_sublist _ _)
      have hsorted : List.Sorted (fun a b : String × Nat => a.2 ≤ b.2)
          (expiryPairs (setAll [] as)) := by
        rw [expiryPairs, List.Sorted, List.pairwise_map]
        exact hpwS
      obtain ⟨p, tl, hS⟩ : ∃ p tl, setAll [] as = p :: tl := by
        cases hSc : setAll [] as with
        | nil => rw [hSc] at hlenS2; simp at hlenS2
        | cons p tl => exact ⟨p, tl, rfl⟩
      have hcheck : checkCacheSize (setAll [] as) = tl := by
        rw [hS]
        exact checkCacheSize_cons_sorted (hS ▸ hwfS) (hS ▸ hlenS2) (hS ▸ hsorted)
      have htl : tl = (as.map entryOf).drop ((as.length - (MAX_CACHE_SIZE + 1)) + 1) := by
        have : tl = (setAll [] as).tail := by rw [hS]; rfl
        rw [this, IH, List.tail_drop]
      have hfreshtl : a.2.1 ∉ keys tl := by
        intro hmem
        apply hfreshS
        rw [hS]
        exact List.mem_cons_of_mem _ hmem
      rw [hstep, Set, hcheck, insertEntry_of_not_mem _ hfreshtl, htl]
      have hidx : (as ++ [a]).length - (MAX_CACHE_SIZE + 1)
          = (as.length - (MAX_CACHE_SIZE + 1)) + 1 := by
        simp only [List.length_append, List.length_singleton]
        omega
      rw [hidx, List.map_append,
        List.drop_append_of_le_length (by
          rw [List.length_map]
          omega)]
      rfl

/-! ### Provenance of entries: every entry comes from some `Set` -/

theorem mem_Set {store : Store} {now : Nat} {key : String} {data : List UInt8}
    {p : String × CacheEntry} (h : p ∈ Set store now key data) :
    p = (key, ⟨data, now + CACHE_DURATION⟩) ∨ p ∈ store := by
  rcases mem_insertEntry h with h1 | h1
  · exact Or.inl h1
  · exact Or.inr ((checkCacheSize_sublist store).subset h1)

theorem mem_step {store : Store} {op : Op} {p : String × CacheEntry}
    (h : p ∈ step store op) :
    (∃ t d, op = Op.set t p.1 d ∧ p.2 = ⟨d, t + CACHE_DURATION⟩) ∨ p ∈ store := by
  cases op with
  | set now key data =>
    rcases mem_Set h with h1 | h1
    · left
      refine ⟨now, data, ?_, ?_⟩
      · rw [show p.1 = key from congrArg Prod.fst h1]
      · exact congrArg Prod.snd h1
    · exact Or.inr h1
  | get now key =>
    rw [step, Get_store_eq] at h
    exact Or.inr h
  | sweep now =>
    exact Or.inr ((List.filter_sublist store).subset h)

theorem foldl_step_provenance (ops : List Op) :
    ∀ store : Store, ∀ p ∈ ops.foldl step store,
      p ∈ store ∨ ∃ t d, Op.set t p.1 d ∈ ops ∧ p.2 = ⟨d, t + CACHE_DURATION⟩ := by
  induction ops with
  | nil => exact fun store p hp => Or.inl hp
  | cons op ops ih =>
    intro store p hp
    rw [List.foldl_cons] at hp
    rcases ih (step store op) p hp with h1 | h1
    · rcases mem_step h1 with h2 | h2
      · obtain ⟨t, d, hop, he⟩ := h2
        exact Or.inr ⟨t, d, by rw [hop]; exact List.mem_cons_self _ _, he⟩
      · exact Or.inl h2
    · obtain ⟨t, d, hop, he⟩ := h1
      exact Or.inr ⟨t, d, List.mem_cons_of_mem _ hop, he⟩

/-! ### Auxiliary facts about `setAll` and the demo request sequences -/

theorem setAll_eq_foldl_step (store : Store) (ops : List (Nat × String × List UInt8)) :
    setAll store ops = (ops.map fun op => Op.set op.1 op.2.1 op.2.2).foldl step store := by
  rw [List.foldl_map]
  rfl

theorem mem_keys_insertEntry_self (store : Store) (key : String) (e : CacheEntry) :
    key ∈ keys (insertEntry store key e) := by
  rw [keys_insertEntry]
  by_cases hk : key ∈ keys store
  · rwa [if_pos hk]
  · rw [if_neg hk]
    exact List.mem_append_right _ (List.mem_singleton_self key)

theorem demoKey_length (i : Nat) : (demoKey i).length = i := by
  rw [show (demoKey i).length = (List.replicate i 'a').length from rfl,
    List.length_replicate]

theorem demoKey_inj : Function.Injective demoKey := by
  intro i j h
  have := congrArg String.length h
  rwa [demoKey_length, demoKey_length] at this

theorem demoOps_map_key (n : Nat) :
    ((demoOps n).map fun op => op.2.1) = (List.range n).map demoKey := by
  rw [demoOps, List.map_map]
  rfl

theorem demoOps_keys_nodup (n : Nat) :
    ((demoOps n).map fun op => op.2.1).Nodup := by
  rw [demoOps_map_key]
  exact (List.nodup_range n).map demoKey_inj

theorem demoOps_mono (n : Nat) :
    List.Pairwise (fun a b => a.1 < b.1) (demoOps n) := by
  rw [demoOps, List.pairwise_map]
  exact List.pairwise_lt_range n

theorem demoOps_length (n : Nat) : (demoOps n).length = n := by
  simp [demoOps]

theorem demoOps_mem_fst {n : Nat} {op : Nat × String × List UInt8}
    (h : op ∈ demoOps n) : op.1 < n := by
  rw [demoOps] at h
  obtain ⟨i, hi, rfl⟩ := List.mem_map.1 h
  simpa using List.mem_range.1 hi

/-! ### Claims -/

/-- C1, counterexample: after 1001 `Set` calls on distinct keys the store
holds 1001 entries, so the claimed bound `size ≤ MAX_CACHE_SIZE` fails. -/
theorem c1_capacity_counterexample :
    ¬ ((setAll [] (demoOps 1001)).length ≤ MAX_CACHE_SIZE) := by
  have hwin := setAll_window (demoOps 1001) (demoOps_keys_nodup 1001)
    (demoOps_mono 1001)
  rw [hwin, List.length_drop, List.length_map, demoOps_length]
  simp only [MAX_CACHE_SIZE]
  omega

/-- C1, amended: after any sequence of `Set` calls starting from a newly
constructed `CacheManager`, the store holds at most `MAX_CACHE_SIZE + 1`
entries (eviction runs before the pending insert). -/
theorem c1_capacity_amended (ops : List (Nat × String × List UInt8)) :
    (setAll [] ops).length ≤ MAX_CACHE_SIZE + 1 := by
  rw [setAll_eq_foldl_step]
  exact (foldl_step_inv _ [] (by simp [WF, keys]) (by simp)).2

/-- C2: a `Get` right after `Set(k, p)` (current time not past the stored
expiry) returns `(p, true)`; once the time is past `insertion +
CACHE_DURATION`, `Get(k)` returns `(nil, false)`. -/
theorem c2_ttl_expiry (store : Store) (t thit tmiss : Nat) (key : String)
    (p : List UInt8) (hhit : ¬ thit > t + CACHE_DURATION)
    (hmiss : tmiss > t + CACHE_DURATION) :
    (Get (Set store t key p) thit key).1 = (some p, true) ∧
    (Get (Set store t key p) tmiss key).1 = (none, false) := by
  have hfind : findEntry (Set store t key p) key = some ⟨p, t + CACHE_DURATION⟩ :=
    findEntry_insertEntry_self _ _ _
  exact ⟨Get_hit hfind hhit, Get_miss_expired hfind hmiss⟩

/-- Witness for C2 at a concrete store, key, payload and times. -/
theorem c2_ttl_expiry_witness :
    (¬ (0:Nat) > 0 + CACHE_DURATION) ∧ (CACHE_DURATION + 1 > 0 + CACHE_DURATION) ∧
    ((Get (Set [] 0 "k" [1]) 0 "k").1 = (some [1], true) ∧
     (Get (Set [] 0 "k" [1]) (CACHE_DURATION + 1) "k").1 = (none, false)) :=
  ⟨by decide, by decide,
    c2_ttl_expiry [] 0 0 (CACHE_DURATION + 1) "k" [1] (by decide) (by decide)⟩

/-- C3: at the top of a `Set`, if the store holds at most `MAX_CACHE_SIZE`
entries the eviction pass removes nothing; otherwise it keeps exactly
`MAX_CACHE_SIZE` entries, keeps only entries already present and unchanged,
and every removed entry has expiry at most that of every kept entry. -/
theorem c3_eviction_pass (store : Store) (hwf : WF store) :
    (store.length ≤ MAX_CACHE_SIZE → checkCacheSize store = store) ∧
    (MAX_CACHE_SIZE < store.length →
      (checkCacheSize store).length = MAX_CACHE_SIZE ∧
      (checkCacheSize store).Sublist store ∧
      ∀ p ∈ store, p ∉ checkCacheSize store →
        ∀ q ∈ checkCacheSize store, p.2.expiry ≤ q.2.expiry) :=
  ⟨fun h => checkCacheSize_of_le h,
    fun h => ⟨checkCacheSize_length_of_gt hwf h, checkCacheSize_sublist store,
      fun _p hp hpn _q hq => checkCacheSize_removed_le hwf h hp hpn hq⟩⟩

/-- Witness for C3 at a concrete two-entry store. -/
theorem c3_eviction_pass_witness :
    WF [("a", ⟨[], 5⟩), ("b", ⟨[], 3⟩)] ∧
    (([("a", ⟨[], 5⟩), ("b", ⟨[], 3⟩)] : Store).length ≤ MAX_CACHE_SIZE →
      checkCacheSize [("a", ⟨[], 5⟩), ("b", ⟨[], 3⟩)] =
        [("a", ⟨[], 5⟩), ("b", ⟨[], 3⟩)]) :=
  ⟨by decide, (c3_eviction_pass [("a", ⟨[], 5⟩), ("b", ⟨[], 3⟩)] (by decide)).1⟩

/-- C4, counterexample: 1001 `Set` calls on distinct keys at strictly
increasing times overfill capacity by `d = 1`, yet the claimed eviction of
the `d` earliest entries does not happen: the earliest key is still
retrievable after the last `Set` returns. -/
theorem c4_eviction_counterexample :
    (Get (setAll [] (demoOps 1001)) 1000 (demoKey 0)).1 = (some [], true) := by
  have hwin := setAll_window (demoOps 1001) (demoOps_keys_nodup 1001)
    (demoOps_mono 1001)
  have hlen0 : (demoOps 1001).length - (MAX_CACHE_SIZE + 1) = 0 := by
    simp [demoOps_length, MAX_CACHE_SIZE]
  rw [hlen0, List.drop_zero] at hwin
  have hhead : demoOps 1001
      = ((0:Nat), demoKey 0, ([]:List UInt8)) ::
        (List.range 1000).map (fun i => (i + 1, demoKey (i + 1), ([]:List UInt8))) := by
    rw [demoOps, List.range_succ_eq_map, List.map_cons, List.map_map]
    rfl
  rw [hwin, hhead, List.map_cons]
  have hfind : findEntry
      (entryOf (0, demoKey 0, []) ::
        ((List.range 1000).map
          (fun i => (i + 1, demoKey (i + 1), ([]:List UInt8)))).map entryOf)
      (demoKey 0) = some ⟨[], 0 + CACHE_DURATION⟩ := by
    simp [findEntry, entryOf]
  exact Get_hit hfind (by decide)

/-- C4, amended: for `MAX_CACHE_SIZE + d` `Set` calls on distinct keys at
strictly increasing times (none expiring by the query time), after the last
`Set` the store is exactly the last `MAX_CACHE_SIZE + 1` inserted entries —
i.e. the `d - 1` earliest-inserted entries have been removed — and the
most-recently-inserted `MAX_CACHE_SIZE` entries are all retrievable. -/
theorem c4_eviction_amended (ops : List (Nat × String × List UInt8)) (d now : Nat)
    (hnd : (ops.map fun op => op.2.1).Nodup)
    (hmono : List.Pairwise (fun a b => a.1 < b.1) ops)
    (hlen : ops.length = MAX_CACHE_SIZE + d) (hd : 1 ≤ d)
    (hlive : ∀ op ∈ ops, ¬ now > op.1 + CACHE_DURATION) :
    setAll [] ops = (ops.map entryOf).drop (d - 1) ∧
    ∀ op ∈ ops.drop d, (Get (setAll [] ops) now op.2.1).1 = (some op.2.2, true) := by
  have hidx : ops.length - (MAX_CACHE_SIZE + 1) = d - 1 := by omega
  have hwin := setAll_window ops hnd hmono
  rw [hidx] at hwin
  refine ⟨hwin, ?_⟩
  intro op hop
  have hwf : WF (setAll [] ops) := WF_setAll ops [] (by simp [WF, keys])
  have hmem : entryOf op ∈ setAll [] ops := by
    rw [hwin]
    have h1 : entryOf op ∈ (ops.map entryOf).drop d :=
      (List.map_drop entryOf ops d) ▸ List.mem_map_of_mem entryOf hop
    have h2 : (ops.map entryOf).drop d = ((ops.map entryOf).drop (d - 1)).drop 1 := by
      rw [List.drop_drop, show d - 1 + 1 = d from by omega]
    rw [h2] at h1
    exact (List.drop_sublist 1 _).subset h1
  have hfind : findEntry (setAll [] ops) op.2.1
      = some ⟨op.2.2, op.1 + CACHE_DURATION⟩ :=
    findEntry_eq_some_of_mem hwf hmem
  exact Get_hit hfind (hlive op (List.mem_of_mem_drop hop))

/-- Witness for the amended C4 with 1001 distinct keys (`d = 1`). -/
theorem c4_eviction_amended_witness :
    ((demoOps 1001).map fun op => op.2.1).Nodup ∧
    List.Pairwise (fun a b => a.1 < b.1) (demoOps 1001) ∧
    (demoOps 1001).length = MAX_CACHE_SIZE + 1 ∧ 1 ≤ 1 ∧
    (∀ op ∈ demoOps 1001, ¬ 1000 > op.1 + CACHE_DURATION) ∧
    (setAll [] (demoOps 1001) = ((demoOps 1001).map entryOf).drop (1 - 1) ∧
     ∀ op ∈ (demoOps 1001).drop 1,
       (Get (setAll [] (demoOps 1001)) 1000 op.2.1).1 = (some op.2.2, true)) := by
  have hlive : ∀ op ∈ demoOps 1001, ¬ 1000 > op.1 + CACHE_DURATION := by
    intro op hop
    have := demoOps_mem_fst hop
    simp only [CACHE_DURATION]
    omega
  have hlen : (demoOps 1001).length = MAX_CACHE_SIZE + 1 := by
    simp [demoOps_length, MAX_CACHE_SIZE]
  exact ⟨demoOps_keys_nodup 1001, demoOps_mono 1001, hlen, le_refl 1, hlive,
    c4_eviction_amended (demoOps 1001) 1 1000 (demoOps_keys_nodup 1001)
      (demoOps_mono 1001) hlen (le_refl 1) hlive⟩

/-- C5: every entry present after any operation sequence on a fresh
`CacheManager` was written by some `Set` in the sequence, with expiry equal
to that insertion time plus `CACHE_DURATION` and payload equal to that
`Set` payload; `Get` steps leave the store unchanged, so the TTL is fixed,
not sliding. -/
theorem c5_fixed_ttl (ops : List Op) :
    ∀ p ∈ run ops, ∃ t d, Op.set t p.1 d ∈ ops ∧ p.2 = ⟨d, t + CACHE_DURATION⟩ := by
  intro p hp
  rcases foldl_step_provenance ops [] p hp with h | h
  · simp at h
  · exact h

/-- Witness for C5 on a one-`Set` trace. -/
theorem c5_fixed_ttl_witness :
    (("k", (⟨[], CACHE_DURATION⟩ : CacheEntry)) ∈ run [Op.set 0 "k" []]) ∧
    (∃ t d, Op.set t "k" d ∈ [Op.set 0 "k" []] ∧
      (⟨[], CACHE_DURATION⟩ : CacheEntry) = ⟨d, t + CACHE_DURATION⟩) :=
  ⟨by decide, c5_fixed_ttl [Op.set 0 "k" []] ("k", ⟨[], CACHE_DURATION⟩) (by decide)⟩

/-- C6: overwriting a key and reading it back (no expiry, no capacity
pressure) yields the second payload, and the overwrite leaves the store
size unchanged. -/
theorem c6_overwrite (store : Store) (t1 t2 t3 : Nat) (key : String)
    (p1 p2 : List UInt8) (_hwf : WF store) (hcap : store.length < MAX_CACHE_SIZE)
    (hlive : ¬ t3 > t2 + CACHE_DURATION) :
    (Get (Set (Set store t1 key p1) t2 key p2) t3 key).1 = (some p2, true) ∧
    (Set (Set store t1 key p1) t2 key p2).length = (Set store t1 key p1).length := by
  have hchk1 : checkCacheSize store = store :=
    checkCacheSize_of_le (le_of_lt hcap)
  have hS1 : Set store t1 key p1
      = insertEntry store key ⟨p1, t1 + CACHE_DURATION⟩ := by
    rw [Set, hchk1]
  have hlen1 : (Set store t1 key p1).length ≤ MAX_CACHE_SIZE := by
    rw [hS1, length_insertEntry]
    split <;> omega
  have hchk2 : checkCacheSize (Set store t1 key p1) = Set store t1 key p1 :=
    checkCacheSize_of_le hlen1
  have hS2 : Set (Set store t1 key p1) t2 key p2
      = insertEntry (Set store t1 key p1) key ⟨p2, t2 + CACHE_DURATION⟩ := by
    rw [Set, hchk2]
  constructor
  · have hfind : findEntry (Set (Set store t1 key p1) t2 key p2) key
        = some ⟨p2, t2 + CACHE_DURATION⟩ := by
      rw [hS2]
      exact findEntry_insertEntry_self _ _ _
    exact Get_hit hfind hlive
  · rw [hS2, length_insertEntry]
    have hk : key ∈ keys (Set store t1 key p1) := by
      rw [hS1]
      exact mem_keys_insertEntry_self _ _ _
    rw [if_pos hk]

/-- Witness for C6 at a concrete store, key and payloads. -/
theorem c6_overwrite_witness :
    WF ([] : Store) ∧ ([] : Store).length < MAX_CACHE_SIZE ∧
    (¬ (0:Nat) > 0 + CACHE_DURATION) ∧
    ((Get (Set (Set [] 0 "k" [0]) 0 "k" [1]) 0 "k").1 = (some [1], true) ∧
     (Set (Set [] 0 "k" [0]) 0 "k" [1]).length = (Set [] 0 "k" [0]).length) :=
  ⟨by decide, by decide, by decide,
    c6_overwrite [] 0 0 0 "k" [0] [1] (by decide) (by decide) (by decide)⟩

/-- C7: one sweep keeps exactly the entries whose expiry is not before the
current time, each unchanged (and in their original order); entries with
`expiresAt` before `now` are exactly the ones removed. -/
theorem c7_sweep_exact (store : Store) (now : Nat) (k : String) (e : CacheEntry) :
    ((k, e) ∈ cleanExpiredCache store now ↔ (k, e) ∈ store ∧ ¬ e.expiry < now) ∧
    (cleanExpiredCache store now).Sublist store := by
  constructor
  · rw [cleanExpiredCache, List.mem_filter]
    constructor
    · intro h
      refine ⟨h.1, ?_⟩
      have := h.2
      simpa using this
    · intro h
      refine ⟨h.1, ?_⟩
      simpa using h.2
  · exact List.filter_sublist store

/-- C8: `Get` never modifies the store; an expired-but-present entry is
reported as a miss yet remains physically present afterwards. -/
theorem c8_get_no_mutation (store : Store) (now : Nat) (key : String) :
    (Get store now key).2 = store ∧
    (∀ e, findEntry store key = some e → now > e.expiry →
      (Get store now key).1 = (none, false) ∧
      findEntry ((Get store now key).2) key = some e) := by
  refine ⟨Get_store_eq store now key, ?_⟩
  intro e hfind hexp
  refine ⟨Get_miss_expired hfind hexp, ?_⟩
  rw [Get_store_eq]
  exact hfind

/-- Witness for C8 on a store holding one expired entry. -/
theorem c8_get_no_mutation_witness :
    (Get [("k", ⟨[7], 0⟩)] 1 "k").2 = [("k", ⟨[7], 0⟩)] ∧
    findEntry [("k", ⟨[7], 0⟩)] "k" = some ⟨[7], 0⟩ ∧ (1:Nat) > 0 ∧
    ((Get [("k", ⟨[7], 0⟩)] 1 "k").1 = (none, false) ∧
     findEntry ((Get [("k", ⟨[7], 0⟩)] 1 "k").2) "k" = some ⟨[7], 0⟩) :=
  ⟨(c8_get_no_mutation [("k", ⟨[7], 0⟩)] 1 "k").1, by decide, by decide,
    (c8_get_no_mutation [("k", ⟨[7], 0⟩)] 1 "k").2 ⟨[7], 0⟩ (by decide) (by decide)⟩

/-- C10 (implicit): starting from a newly constructed `CacheManager`, the
store never exceeds `MAX_CACHE_SIZE + 1` entries after any operation
(`Set`, `Get` or sweep) completes. -/
theorem c10_size_bound (ops : List Op) :
    (run ops).length ≤ MAX_CACHE_SIZE + 1 :=
  (foldl_step_inv ops [] (by simp [WF, keys]) (by simp)).2

end TmdbCache
